import Mathlib

/-!
Verification of the incremental discovery & capture engine of `gddown.py`
(Google Drive PDF downloader).  Each Python routine the claims touch is
embedded as an executable Lean definition; external collaborators (the
browser, PIL, img2pdf, the filesystem) appear as explicit oracle inputs or
explicit state.  Theorems about those definitions settle the spec's claims.
-/

namespace GDDown

/-! ## Filename sanitization (`sanitize_filename`, gddown.py lines 58-68)

The Python code substitutes `_` for every character matching
`[<>:"/\\|?*\x00-\x1f]`, strips trailing dots and spaces, and truncates to
200 characters. -/

/-- A character matched by the regex class `[<>:"/\\|?*\x00-\x1f]`. -/
def illegalChar (c : Char) : Bool :=
  c = '<' || c = '>' || c = ':' || c = '"' || c = '/' || c = '\\' ||
  c = '|' || c = '?' || c = '*' || c.toNat ≤ 0x1f

/-- One character of `re.sub(illegal_chars, '_', filename)`. -/
def replaceIllegal (c : Char) : Char :=
  if illegalChar c then '_' else c

/-- A character removed by `rstrip('. ')`. -/
def dotOrSpace (c : Char) : Bool :=
  c = '.' || c = ' '

/-- Python `s.rstrip('. ')` on a character list. -/
def rstripDotSpace (l : List Char) : List Char :=
  (l.reverse.dropWhile dotOrSpace).reverse

/-- `sanitize_filename` of gddown.py: substitute `_` for illegal characters,
strip trailing dots/spaces, truncate to 200 characters. -/
def sanitize_filename (s : String) : String :=
  let sanitized := s.data.map replaceIllegal
  let sanitized := rstripDotSpace sanitized
  String.mk (if sanitized.length > 200 then sanitized.take 200 else sanitized)

/-! ## URL classification and file-id extraction (gddown.py lines 70-102) -/

/-- A character of the regex class `[a-zA-Z0-9-_]`. -/
def idChar (c : Char) : Bool :=
  ('a' ≤ c && c ≤ 'z') || ('A' ≤ c && c ≤ 'Z') || ('0' ≤ c && c ≤ '9') ||
  c = '-' || c = '_'

/-- The literal part `/file/d/` of the pattern `/file/d/([a-zA-Z0-9-_]+)/`. -/
def fileDirPat : List Char := '/' :: 'f' :: 'i' :: 'l' :: 'e' :: '/' :: 'd' :: '/' :: []

/-- Attempt of `re.search(r'/file/d/([a-zA-Z0-9-_]+)/', url)` anchored at the
head of `l`: the literal `/file/d/`, then a nonempty greedy run of id
characters, then `/`.  Returns the captured group. -/
def matchFileIdAt (l : List Char) : Option (List Char) :=
  if fileDirPat.isPrefixOf l then
    let rest := l.drop fileDirPat.length
    let run := rest.takeWhile idChar
    match run, rest.dropWhile idChar with
    | [], _ => none
    | _, [] => none
    | grp, c :: _ => if c = '/' then some grp else none
  else none

/-- Scan of `re.search`: try every start position left to right. -/
def searchFileId : List Char → Option (List Char)
  | [] => none
  | c :: rest =>
    match matchFileIdAt (c :: rest) with
    | some grp => some grp
    | none => searchFileId rest

/-- `extract_file_id_from_url` of gddown.py: first match of
`/file/d/([a-zA-Z0-9-_]+)/` in the URL, as the captured group. -/
def extract_file_id_from_url (url : String) : Option String :=
  (searchFileId url.data).map String.mk

/-- Substring test modelling Python's `in` operator on strings. -/
def hasSubstr (pat : List Char) : List Char → Bool
  | [] => pat.isPrefixOf ([] : List Char)
  | c :: rest => pat.isPrefixOf (c :: rest) || hasSubstr pat rest

/-- `is_file_url` of gddown.py: `'/file/d/' in url`. -/
def is_file_url (url : String) : Bool :=
  hasSubstr fileDirPat url.data

/-- The file URL `extract_files_from_folder` constructs for a collected id
(gddown.py line 491). -/
def file_url_of (id : String) : String :=
  "https://drive.google.com/file/d/" ++ id ++ "/view"

/-! ## Page-discovery loop (`capture_blob_images`, gddown.py lines 170-240)

The browser is the oracle `probe : Nat → Except Unit (List String)` giving
the blob URLs each `page.evaluate` returns (or the exception it raises), and
`adv : Nat → Except Unit Unit` the outcome of the scroll/advance action of
each iteration.  The Python loop appends unseen URLs to `collected_urls`,
breaks at the 200-item cap, breaks after 8 consecutive probes adding
nothing, and runs at most 1000 iterations; a scroll failure is swallowed
(with a keyboard fallback whose own failure is also swallowed), while a
probe exception propagates to the `except` of `capture_blob_images`, which
returns `[]`. -/

/-- Insertion step of `collected_urls` (lines 196-199): append each URL not
already collected. -/
def collectUrls (coll : List String) (urls : List String) : List String :=
  urls.foldl (fun acc u => if u ∈ acc then acc else acc ++ [u]) coll

/-- The `for attempt in range(0, 1000)` discovery loop of
`capture_blob_images`, with `fuel` the remaining iterations and `i` the
current attempt index.  A probe error is re-raised (caught only by the
enclosing function). -/
def blobDiscoveryLoop (probe : Nat → Except Unit (List String))
    (adv : Nat → Except Unit Unit) :
    Nat → Nat → List String → Nat → Except Unit (List String)
  | 0, _, coll, _ => .ok coll
  | fuel + 1, i, coll, noNew =>
    match probe i with
    | .error e => .error e
    | .ok urls =>
      let coll2 := collectUrls coll urls
      if 200 ≤ coll2.length then .ok coll2
      else
        let noNew2 := if coll2.length = coll.length then noNew + 1 else 0
        if 8 ≤ noNew2 then .ok coll2
        else
          match adv i with
          | .ok _ => blobDiscoveryLoop probe adv fuel (i + 1) coll2 noNew2
          | .error _ => blobDiscoveryLoop probe adv fuel (i + 1) coll2 noNew2

/-- The blob URLs `capture_blob_images` goes on to download: the discovery
loop's `collected_urls`, or `[]` when a probe exception reached the
function-level `except` (line 310). -/
def capture_blob_images_urls (probe : Nat → Except Unit (List String))
    (adv : Nat → Except Unit Unit) : List String :=
  match blobDiscoveryLoop probe adv 1000 0 [] 0 with
  | .ok coll => coll
  | .error _ => []

/-! ## Folder-entry discovery (`extract_files_from_folder`, lines 409-492)

The oracle `probe` gives each `page.evaluate` folder scan's `{id, name}`
records.  Collected ids go into the Python set `collected_file_ids`;
falsy (empty) ids are skipped.  The loop runs at most 100 attempts and
stops after 15 consecutive probes adding nothing; an exception inside an
attempt `break`s the loop, keeping what was collected.  At the end the
set is iterated — in whatever order Python enumerates a `set`, modelled by
the parameter `iter` — and each id becomes a file URL. -/

/-- One row of the folder view, as the scan's `page.evaluate` returns it. -/
structure FolderEntry where
  id : String
  name : String
  deriving DecidableEq

/-- Insertion of one probe's rows into `collected_file_ids`
(lines 454-459): an id is added only if truthy and not already present.
The list tracks the set's contents in insertion order. -/
def collectIds (coll : List String) (entries : List FolderEntry) : List String :=
  entries.foldl (fun acc e => if e.id ≠ "" ∧ e.id ∉ acc then acc ++ [e.id] else acc) coll

/-- The `for attempt in range(100)` folder-scan loop, with `fuel` the
remaining attempts.  A probe error models the `except` at line 485: the
loop breaks, returning the ids collected so far. -/
def folderScanLoop (probe : Nat → Except Unit (List FolderEntry))
    (adv : Nat → Except Unit Unit) :
    Nat → Nat → List String → Nat → List String
  | 0, _, coll, _ => coll
  | fuel + 1, i, coll, noNew =>
    match probe i with
    | .error _ => coll
    | .ok entries =>
      let coll2 := collectIds coll entries
      let noNew2 := if coll2.length = coll.length then noNew + 1 else 0
      if 15 ≤ noNew2 then coll2
      else
        match adv i with
        | .ok _ => folderScanLoop probe adv fuel (i + 1) coll2 noNew2
        | .error _ => folderScanLoop probe adv fuel (i + 1) coll2 noNew2

/-- The ids `extract_files_from_folder` accumulates in `collected_file_ids`. -/
def folderCollectedIds (probe : Nat → Except Unit (List FolderEntry))
    (adv : Nat → Except Unit Unit) : List String :=
  folderScanLoop probe adv 100 0 [] 0

/-- The file URLs `extract_files_from_folder` returns (lines 489-492):
`collected_file_ids` enumerated in Python's set-iteration order —
the unspecified enumeration `iter`, any order that lists each element
exactly once — each converted to a file URL. -/
def extract_files_from_folder (iter : List String → List String)
    (probe : Nat → Except Unit (List FolderEntry))
    (adv : Nat → Except Unit Unit) : List String :=
  (iter (folderCollectedIds probe adv)).map file_url_of

/-- Discovery loop as the spec describes it (§4.1, the refinement target the
claims compare against): a probe or advance error is treated as zero new
items for that iteration and the loop continues, with the same
configuration as the page loop (idle bound 8, cap 200, ceiling 1000). -/
def specDiscoveryLoop (probe : Nat → Except Unit (List String)) :
    Nat → Nat → List String → Nat → List String
  | 0, _, coll, _ => coll
  | fuel + 1, i, coll, noNew =>
    let urls := match probe i with
      | .error _ => []
      | .ok urls => urls
    let coll2 := collectUrls coll urls
    if 200 ≤ coll2.length then coll2
    else
      let noNew2 := if coll2.length = coll.length then noNew + 1 else 0
      if 8 ≤ noNew2 then coll2
      else specDiscoveryLoop probe fuel (i + 1) coll2 noNew2

/-- The spec's page discovery: run the spec's loop over the full budget. -/
def specPageDiscover (probe : Nat → Except Unit (List String)) : List String :=
  specDiscoveryLoop probe 1000 0 [] 0

/-! ## Document assembly (`compile_pdf`, gddown.py lines 314-373)

State is the persistent store (temp directory plus the output path),
modelled as an association list of paths to contents with overwrite
semantics.  The behaviour of the external decoders is an oracle per input
image: whether PIL decodes and converts it (`decodeOk`), whether its mode
is `RGBA`/`LA`/`P` (`alpha`), and whether `img2pdf` accepts the raw file
(`rawPdfOk`; the JPEG produced by a successful conversion is always
accepted).  Whether `open(output_path, 'wb')` succeeds is the oracle
`openOutOk`. -/

/-- A path `compile_pdf` touches: `temp_images/page_<i>.png`, the
`.with_suffix('.jpg')` sibling, or the output PDF path. -/
inductive TPath where
  | png (i : Nat)
  | jpg (i : Nat)
  | out
  deriving DecidableEq

/-- Content of a file `compile_pdf` writes: the i-th page's raw bytes, its
re-encoded JPEG, the empty file a fresh `open(..., 'wb')` leaves when the
write raises, or the finished PDF. -/
inductive TContent where
  | raw (i : Nat)
  | jpeg (i : Nat)
  | empty
  | pdf
  deriving DecidableEq

/-- The persistent store: which paths exist, with what content. -/
abbrev FS := List (TPath × TContent)

/-- Create or overwrite the file at `p`. -/
def fsWrite (p : TPath) (c : TContent) (fs : FS) : FS :=
  (p, c) :: fs.filter (fun e => e.1 ≠ p)

/-- `if path.exists(): path.unlink()`. -/
def fsUnlink (p : TPath) (fs : FS) : FS :=
  fs.filter (fun e => e.1 ≠ p)

/-- Whether a file exists at `p`. -/
def fsHas (p : TPath) (fs : FS) : Bool :=
  fs.any (fun e => e.1 = p)

/-- Content of the file at `p`, if it exists. -/
def fsGet (p : TPath) (fs : FS) : Option TContent :=
  (fs.find? (fun e => e.1 = p)).map (fun e => e.2)

/-- Oracle for one element of `image_data_list`. -/
structure ImgSpec where
  decodeOk : Bool
  alpha : Bool
  rawPdfOk : Bool
  deriving DecidableEq

/-- Persist step (lines 333-338): write each page's bytes to
`page_<idx>.png`. -/
def writeTemps (imgs : List ImgSpec) (fs : FS) : FS :=
  imgs.enum.foldl (fun acc p => fsWrite (.png p.1) (.raw p.1) acc) fs

/-- Conversion step (lines 341-356): for each temp file in order, decode;
a decodable image with an alpha/palette mode is composited and saved as a
JPEG whose path is appended to `rgb_image_paths`; otherwise — including
when decoding raises, which only logs a warning — the original path is
appended.  Returns `rgb_image_paths` and the store. -/
def convertImages (imgs : List ImgSpec) (fs : FS) : List TPath × FS :=
  imgs.enum.foldl
    (fun st p =>
      if p.2.decodeOk && p.2.alpha then
        (st.1 ++ [TPath.jpg p.1], fsWrite (.jpg p.1) (.jpeg p.1) st.2)
      else
        (st.1 ++ [TPath.png p.1], st.2))
    ([], fs)

/-- Whether `img2pdf.convert` accepts the file standing for one image: a
converted JPEG always, a raw pass-through only when `rawPdfOk`. -/
def img2pdfAccepts (img : ImgSpec) : Bool :=
  if img.decodeOk && img.alpha then true else img.rawPdfOk

/-- `compile_pdf` of gddown.py: empty input fails at once; pages are
persisted, converted, and concatenated to the output path; `with open(...)`
creates the output file before `img2pdf.convert` runs, so a conversion
error leaves an empty file there; temp files are unlinked only on the path
that reaches line 365, after a successful write; any exception is caught
and the function returns `False` with the store as the exception left it. -/
def compile_pdf (imgs : List ImgSpec) (openOutOk : Bool) (fs0 : FS) : Bool × FS :=
  if imgs.isEmpty then (false, fs0)
  else
    let fs1 := writeTemps imgs fs0
    let st := convertImages imgs fs1
    if !openOutOk then (false, st.2)
    else
      let fs3 := fsWrite .out .empty st.2
      if !(imgs.all img2pdfAccepts) then (false, fs3)
      else
        let fs4 := fsWrite .out .pdf fs3
        let tempPaths := imgs.enum.map (fun p => TPath.png p.1)
        let fs5 := (tempPaths ++ st.1).foldl (fun acc p => fsUnlink p acc) fs4
        (true, fs5)

/-! ## Output-name collision loop (`download_pdf`, gddown.py lines 551-561)

`output_path` starts as `<title>.pdf`; while a file exists there, the name
becomes `<title>_<counter>.pdf` with `counter` incremented from 1.  The
destination directory's contents are the name list `fs`; the loop
terminates exactly when some candidate is free, which the caller knows
because the directory is finite — that fact is the argument `h`. -/

/-- The candidate filename the loop tests at step `k`: the intended name for
`k = 0`, then `<title>_<k>.pdf`. -/
def outputCandidate (title : String) : Nat → String
  | 0 => title ++ ".pdf"
  | k + 1 => title ++ "_" ++ Nat.repr (k + 1) ++ ".pdf"

/-- The filename `download_pdf` settles on: the first candidate not already
present in the destination directory `fs`. -/
def download_pdf_output_name (fs : List String) (title : String)
    (h : ∃ k, outputCandidate title k ∉ fs) : String :=
  outputCandidate title (Nat.find h)

/-- Sanitization as the spec words it (§6), the comparison target for C7:
strip (remove) the illegal characters, trim trailing dots/spaces, truncate
to 200 characters, and fall back to the fixed default name `dflt` when the
result is empty. -/
def sanitize_filename_spec (dflt : String) (s : String) : String :=
  let stripped := s.data.filter (fun c => !illegalChar c)
  let stripped := rstripDotSpace stripped
  let stripped := stripped.take 200
  if stripped.isEmpty then dflt else String.mk stripped

set_option maxRecDepth 10000

/-! ## Probe scenarios and bookkeeping used by the theorems -/

/-- An advance oracle that always succeeds. -/
def advOk : Nat → Except Unit Unit := fun _ => .ok ()

/-- Every blob URL any of the first 1000 probes shows (an erroring probe
shows none): the pool `collected_urls` draws from. -/
def pageSeen (probe : Nat → Except Unit (List String)) : List String :=
  (List.range 1000).flatMap fun j =>
    match probe j with
    | .ok us => us
    | .error _ => []

/-- Every entry id any of the first 100 folder probes shows. -/
def folderSeen (probe : Nat → Except Unit (List FolderEntry)) : List String :=
  (List.range 100).flatMap fun j =>
    match probe j with
    | .ok es => es.map (fun e => e.id)
    | .error _ => []

/-- Pairwise-distinct ids, one per iteration index: the id seen first on
iteration `j` (distinctness is by length). -/
def freshId (j : Nat) : String := String.mk (List.replicate (j + 1) 'a')

/-- A page-probe oracle that yields one never-seen URL on each of the first
`k` iterations and then raises. -/
def freshThenError (k : Nat) : Nat → Except Unit (List String) := fun j =>
  if j < k then .ok [freshId j] else .error ()

/-- A folder-probe oracle that yields one never-seen entry on each of the
first `k` iterations and then raises. -/
def freshThenErrorFolder (k : Nat) : Nat → Except Unit (List FolderEntry) := fun j =>
  if j < k then .ok [⟨freshId j, "file.pdf"⟩] else .error ()

/-- The folder-probe sequence of the claim's scenario: `{id:"a"}` first,
then `{id:"a"}, {id:"b"}` on every later probe (the view has stabilized). -/
def folderProbesAB : Nat → Except Unit (List FolderEntry) := fun j =>
  if j = 0 then .ok [⟨"a", "x.pdf"⟩] else .ok [⟨"a", "x.pdf"⟩, ⟨"b", "y.pdf"⟩]

/-- A page-probe oracle showing 201 fresh URLs on every iteration (distinct
across iterations by length, within an iteration by first character). -/
def overshootProbe : Nat → Except Unit (List String) := fun j =>
  .ok ((List.range 201).map fun r => String.mk (Char.ofNat (65 + r) :: List.replicate j 'a'))

/-- A page-probe trace whose second probe raises: one URL, then an error,
then a stabilized view that also shows a second URL. -/
def errorMidProbe : Nat → Except Unit (List String) := fun j =>
  if j = 0 then .ok ["u1"] else if j = 1 then .error () else .ok ["u1", "u2"]

/-! ## Helper lemmas -/

theorem isPrefixOf_append_self (l t : List Char) : l.isPrefixOf (l ++ t) = true := by
  induction l with
  | nil => simp [List.isPrefixOf]
  | cons c cs ih => simp [List.isPrefixOf, ih]

theorem takeWhile_append_stop (p : Char → Bool) (xs : List Char) (y : Char) (ys : List Char)
    (hxs : ∀ x ∈ xs, p x = true) (hy : p y = false) :
    (xs ++ y :: ys).takeWhile p = xs := by
  induction xs with
  | nil => simp [List.takeWhile, hy]
  | cons c cs ih =>
    have hc : p c = true := hxs c (by simp)
    simp [List.takeWhile, hc]
    exact ih (fun x hx => hxs x (by simp [hx]))

theorem dropWhile_append_stop (p : Char → Bool) (xs : List Char) (y : Char) (ys : List Char)
    (hxs : ∀ x ∈ xs, p x = true) (hy : p y = false) :
    (xs ++ y :: ys).dropWhile p = y :: ys := by
  induction xs with
  | nil => simp [List.dropWhile, hy]
  | cons c cs ih =>
    have hc : p c = true := hxs c (by simp)
    simp [List.dropWhile, hc]
    exact ih (fun x hx => hxs x (by simp [hx]))

theorem matchFileIdAt_hit (g rest : List Char) (hg : g ≠ [])
    (hall : ∀ c ∈ g, idChar c = true) :
    matchFileIdAt (fileDirPat ++ (g ++ '/' :: rest)) = some g := by
  have hpre : fileDirPat.isPrefixOf (fileDirPat ++ (g ++ '/' :: rest)) = true :=
    isPrefixOf_append_self _ _
  have hdrop : (fileDirPat ++ (g ++ '/' :: rest)).drop fileDirPat.length = g ++ '/' :: rest :=
    List.drop_left _ _
  have hslash : idChar '/' = false := by decide
  unfold matchFileIdAt
  rw [hpre]
  simp only [hdrop, takeWhile_append_stop idChar g '/' rest hall hslash,
    dropWhile_append_stop idChar g '/' rest hall hslash]
  cases g with
  | nil => exact absurd rfl hg
  | cons d ds => simp

theorem searchFileId_skip (l : List Char) :
    searchFileId ("https://drive.google.com".data ++ l) = searchFileId l := by
  have h : "https://drive.google.com".data =
      ['h','t','t','p','s',':','/','/','d','r','i','v','e','.','g','o','o','g','l','e','.','c','o','m'] := rfl
  rw [h]
  simp [searchFileId, matchFileIdAt, fileDirPat, List.isPrefixOf]

theorem file_url_of_data (id : String) :
    (file_url_of id).data =
      "https://drive.google.com".data ++ (fileDirPat ++ (id.data ++ '/' :: "view".data)) := by
  show ("https://drive.google.com/file/d/" ++ id ++ "/view").data = _
  rw [String.data_append, String.data_append]
  show ("https://drive.google.com".data ++ fileDirPat) ++ id.data ++ ('/' :: "view".data) = _
  simp [List.append_assoc]

theorem extract_file_id_roundtrip (id : String) (h1 : id ≠ "")
    (h2 : ∀ c ∈ id.data, idChar c = true) :
    extract_file_id_from_url (file_url_of id) = some id := by
  have hne : id.data ≠ [] := fun hc => h1 (String.ext hc)
  unfold extract_file_id_from_url
  rw [file_url_of_data, searchFileId_skip]
  rw [show searchFileId (fileDirPat ++ (id.data ++ '/' :: "view".data)) =
      match matchFileIdAt (fileDirPat ++ (id.data ++ '/' :: "view".data)) with
      | some grp => some grp
      | none => searchFileId ('f' :: 'i' :: 'l' :: 'e' :: '/' :: 'd' :: '/' ::
          (id.data ++ '/' :: "view".data)) from rfl]
  rw [matchFileIdAt_hit id.data ("view".data) hne h2]
  show some (String.mk id.data) = some id
  rw [show String.mk id.data = id from String.ext rfl]

theorem hasSubstr_of_here (pat pre suf : List Char) (h : pat.isPrefixOf suf = true) :
    hasSubstr pat (pre ++ suf) = true := by
  induction pre with
  | nil =>
    cases suf with
    | nil => simpa [hasSubstr] using h
    | cons c cs => simp [hasSubstr, h]
  | cons c cs ih => simp [hasSubstr, ih]

theorem is_file_url_of_folder_url (id : String) : is_file_url (file_url_of id) = true := by
  unfold is_file_url
  rw [file_url_of_data]
  exact hasSubstr_of_here _ _ _ (isPrefixOf_append_self _ _)

theorem mem_collectUrls (coll us : List String) (x : String) :
    x ∈ collectUrls coll us ↔ x ∈ coll ∨ x ∈ us := by
  induction us generalizing coll with
  | nil => simp [collectUrls]
  | cons u rest ih =>
    show x ∈ collectUrls (if u ∈ coll then coll else coll ++ [u]) rest ↔ _
    rw [ih]
    by_cases hu : u ∈ coll
    · rw [if_pos hu]
      constructor
      · rintro (h | h)
        · exact Or.inl h
        · exact Or.inr (List.mem_cons_of_mem u h)
      · rintro (h | h)
        · exact Or.inl h
        · rcases List.mem_cons.mp h with rfl | h'
          · exact Or.inl hu
          · exact Or.inr h'
    · rw [if_neg hu]
      constructor
      · rintro (h | h)
        · rcases List.mem_append.mp h with h | h
          · exact Or.inl h
          · exact Or.inr (List.mem_cons.mpr (Or.inl (List.mem_singleton.mp h)))
        · exact Or.inr (List.mem_cons_of_mem u h)
      · rintro (h | h)
        · exact Or.inl (List.mem_append.mpr (Or.inl h))
        · rcases List.mem_cons.mp h with rfl | h'
          · exact Or.inl (List.mem_append.mpr (Or.inr (List.mem_singleton.mpr rfl)))
          · exact Or.inr h'

theorem nodup_collectUrls (coll us : List String) (h : coll.Nodup) :
    (collectUrls coll us).Nodup := by
  induction us generalizing coll with
  | nil => exact h
  | cons u rest ih =>
    show List.Nodup (collectUrls (if u ∈ coll then coll else coll ++ [u]) rest)
    by_cases hu : u ∈ coll
    · rw [if_pos hu]; exact ih coll h
    · rw [if_neg hu]
      exact ih _ (by simp [List.nodup_append, h, hu])

theorem length_le_collectUrls (coll us : List String) :
    coll.length ≤ (collectUrls coll us).length := by
  induction us generalizing coll with
  | nil => exact Nat.le_refl _
  | cons u rest ih =>
    show coll.length ≤ (collectUrls (if u ∈ coll then coll else coll ++ [u]) rest).length
    by_cases hu : u ∈ coll
    · rw [if_pos hu]; exact ih coll
    · rw [if_neg hu]
      exact Nat.le_trans (by simp) (ih (coll ++ [u]))

theorem length_lt_collectUrls (coll us : List String) (u : String)
    (hu : u ∈ us) (hnot : u ∉ coll) :
    coll.length < (collectUrls coll us).length := by
  induction us generalizing coll with
  | nil => cases hu
  | cons v rest ih =>
    show coll.length < (collectUrls (if v ∈ coll then coll else coll ++ [v]) rest).length
    by_cases hv : v ∈ coll
    · rw [if_pos hv]
      rcases List.mem_cons.mp hu with h | h
      · exact absurd (h ▸ hv) hnot
      · exact ih coll h hnot
    · rw [if_neg hv]
      calc coll.length < (coll ++ [v]).length := by simp
        _ ≤ _ := length_le_collectUrls _ _

theorem mem_collectIds (coll : List String) (es : List FolderEntry) (x : String) :
    x ∈ collectIds coll es ↔ x ∈ coll ∨ (x ≠ "" ∧ ∃ e ∈ es, e.id = x) := by
  induction es generalizing coll with
  | nil => simp [collectIds]
  | cons e rest ih =>
    show x ∈ collectIds (if e.id ≠ "" ∧ e.id ∉ coll then coll ++ [e.id] else coll) rest ↔ _
    rw [ih]
    by_cases h0 : e.id = ""
    · rw [if_neg (by simp [h0])]
      constructor
      · rintro (h | ⟨hx, f, hf, hfx⟩)
        · exact Or.inl h
        · exact Or.inr ⟨hx, f, List.mem_cons_of_mem e hf, hfx⟩
      · rintro (h | ⟨hx, f, hf, hfx⟩)
        · exact Or.inl h
        · rcases List.mem_cons.mp hf with rfl | hf'
          · exact absurd (hfx.symm.trans h0) hx
          · exact Or.inr ⟨hx, f, hf', hfx⟩
    · by_cases h1 : e.id ∈ coll
      · rw [if_neg (by simp [h1])]
        constructor
        · rintro (h | ⟨hx, f, hf, hfx⟩)
          · exact Or.inl h
          · exact Or.inr ⟨hx, f, List.mem_cons_of_mem e hf, hfx⟩
        · rintro (h | ⟨hx, f, hf, hfx⟩)
          · exact Or.inl h
          · rcases List.mem_cons.mp hf with rfl | hf'
            · exact Or.inl (hfx ▸ h1)
            · exact Or.inr ⟨hx, f, hf', hfx⟩
      · rw [if_pos ⟨h0, h1⟩]
        constructor
        · rintro (h | ⟨hx, f, hf, hfx⟩)
          · rcases List.mem_append.mp h with h | h
            · exact Or.inl h
            · have hx : x = e.id := List.mem_singleton.mp h
              exact Or.inr ⟨fun hxe => h0 (hx.symm.trans hxe), e,
                List.mem_cons_self e rest, hx.symm⟩
          · exact Or.inr ⟨hx, f, List.mem_cons_of_mem e hf, hfx⟩
        · rintro (h | ⟨hx, f, hf, hfx⟩)
          · exact Or.inl (List.mem_append.mpr (Or.inl h))
          · rcases List.mem_cons.mp hf with rfl | hf'
            · exact Or.inl (List.mem_append.mpr (Or.inr (List.mem_singleton.mpr hfx.symm)))
            · exact Or.inr ⟨hx, f, hf', hfx⟩

theorem nodup_collectIds (coll : List String) (es : List FolderEntry) (h : coll.Nodup) :
    (collectIds coll es).Nodup := by
  induction es generalizing coll with
  | nil => exact h
  | cons e rest ih =>
    show List.Nodup (collectIds (if e.id ≠ "" ∧ e.id ∉ coll then coll ++ [e.id] else coll) rest)
    by_cases he : e.id ≠ "" ∧ e.id ∉ coll
    · rw [if_pos he]
      exact ih _ (by simp [List.nodup_append, h, he.2])
    · rw [if_neg he]; exact ih coll h

theorem blobDiscoveryLoop_adv (probe : Nat → Except Unit (List String))
    (a a' : Nat → Except Unit Unit) :
    ∀ fuel i coll noNew,
      blobDiscoveryLoop probe a fuel i coll noNew =
        blobDiscoveryLoop probe a' fuel i coll noNew := by
  intro fuel
  induction fuel with
  | zero => intro i coll noNew; rfl
  | succ f ih =>
    intro i coll noNew
    cases hp : probe i with
    | error e => simp [blobDiscoveryLoop, hp]
    | ok urls =>
      simp only [blobDiscoveryLoop, hp]
      by_cases hc : 200 ≤ (collectUrls coll urls).length
      · simp [hc]
      · simp only [if_neg hc]
        by_cases hn : 8 ≤ (if (collectUrls coll urls).length = coll.length then noNew + 1 else 0)
        · simp [hn]
        · simp only [if_neg hn]
          cases a i <;> cases a' i <;> simp [ih]

theorem folderScanLoop_adv (probe : Nat → Except Unit (List FolderEntry))
    (a a' : Nat → Except Unit Unit) :
    ∀ fuel i coll noNew,
      folderScanLoop probe a fuel i coll noNew =
        folderScanLoop probe a' fuel i coll noNew := by
  intro fuel
  induction fuel with
  | zero => intro i coll noNew; rfl
  | succ f ih =>
    intro i coll noNew
    cases hp : probe i with
    | error e => simp [folderScanLoop, hp]
    | ok es =>
      simp only [folderScanLoop, hp]
      by_cases hn : 15 ≤ (if (collectIds coll es).length = coll.length then noNew + 1 else 0)
      · simp [hn]
      · simp only [if_neg hn]
        cases a i <;> cases a' i <;> simp [ih]

theorem blobDiscoveryLoop_nodup (probe : Nat → Except Unit (List String))
    (a : Nat → Except Unit Unit) :
    ∀ fuel i coll noNew l, coll.Nodup →
      blobDiscoveryLoop probe a fuel i coll noNew = .ok l → l.Nodup := by
  intro fuel
  induction fuel with
  | zero =>
    intro i coll noNew l h he
    cases he
    exact h
  | succ f ih =>
    intro i coll noNew l h he
    unfold blobDiscoveryLoop at he
    split at he
    · cases he
    · dsimp only [] at he
      split at he
      · cases he; exact nodup_collectUrls _ _ h
      · split at he <;> split at he <;>
          first
            | (cases he; exact nodup_collectUrls _ _ h)
            | (split at he <;> exact ih _ _ _ _ (nodup_collectUrls _ _ h) he)

theorem folderScanLoop_nodup (probe : Nat → Except Unit (List FolderEntry))
    (a : Nat → Except Unit Unit) :
    ∀ fuel i coll noNew, coll.Nodup →
      (folderScanLoop probe a fuel i coll noNew).Nodup := by
  intro fuel
  induction fuel with
  | zero => intro i coll noNew h; exact h
  | succ f ih =>
    intro i coll noNew h
    unfold folderScanLoop
    split
    · exact h
    · dsimp only []
      repeat
        first
          | exact nodup_collectIds _ _ h
          | exact ih _ _ _ (nodup_collectIds _ _ h)
          | split

theorem blobDiscoveryLoop_mem (probe : Nat → Except Unit (List String))
    (a : Nat → Except Unit Unit) :
    ∀ fuel i coll noNew l,
      blobDiscoveryLoop probe a fuel i coll noNew = .ok l → ∀ x ∈ l,
      x ∈ coll ∨ ∃ j, i ≤ j ∧ j < i + fuel ∧ ∃ us, probe j = .ok us ∧ x ∈ us := by
  intro fuel
  induction fuel with
  | zero =>
    intro i coll noNew l he x hx
    cases he
    exact Or.inl hx
  | succ f ih =>
    intro i coll noNew l he x hx
    have step : ∀ us, probe i = .ok us → x ∈ collectUrls coll us →
        x ∈ coll ∨ ∃ j, i ≤ j ∧ j < i + (f + 1) ∧ ∃ vs, probe j = .ok vs ∧ x ∈ vs := by
      intro us hp hm
      rcases (mem_collectUrls coll us x).mp hm with h | h
      · exact Or.inl h
      · exact Or.inr ⟨i, Nat.le_refl i, by omega, us, hp, h⟩
    have lift : ∀ us, probe i = .ok us →
        (x ∈ collectUrls coll us ∨
          ∃ j, i + 1 ≤ j ∧ j < (i + 1) + f ∧ ∃ vs, probe j = .ok vs ∧ x ∈ vs) →
        x ∈ coll ∨ ∃ j, i ≤ j ∧ j < i + (f + 1) ∧ ∃ vs, probe j = .ok vs ∧ x ∈ vs := by
      rintro us hp (h | ⟨j, hj1, hj2, vs, hv, hxv⟩)
      · exact step us hp h
      · exact Or.inr ⟨j, by omega, by omega, vs, hv, hxv⟩
    unfold blobDiscoveryLoop at he
    split at he
    · cases he
    · rename_i us hp
      dsimp only [] at he
      repeat
        first
          | (cases he; exact step us hp hx)
          | exact lift us hp (ih _ _ _ _ he x hx)
          | split at he

theorem folderScanLoop_mem (probe : Nat → Except Unit (List FolderEntry))
    (a : Nat → Except Unit Unit) :
    ∀ fuel i coll noNew x,
      x ∈ folderScanLoop probe a fuel i coll noNew →
      x ∈ coll ∨ (x ≠ "" ∧ ∃ j, i ≤ j ∧ j < i + fuel ∧
        ∃ es, probe j = .ok es ∧ ∃ e ∈ es, e.id = x) := by
  intro fuel
  induction fuel with
  | zero => intro i coll noNew x hx; exact Or.inl hx
  | succ f ih =>
    intro i coll noNew x hx
    have step : ∀ es, probe i = .ok es → x ∈ collectIds coll es →
        x ∈ coll ∨ (x ≠ "" ∧ ∃ j, i ≤ j ∧ j < i + (f + 1) ∧
          ∃ es', probe j = .ok es' ∧ ∃ e ∈ es', e.id = x) := by
      intro es hp hm
      rcases (mem_collectIds coll es x).mp hm with h | ⟨hne, e, he, hex⟩
      · exact Or.inl h
      · exact Or.inr ⟨hne, i, Nat.le_refl i, by omega, es, hp, e, he, hex⟩
    have lift : ∀ es, probe i = .ok es →
        (x ∈ collectIds coll es ∨ (x ≠ "" ∧ ∃ j, i + 1 ≤ j ∧ j < (i + 1) + f ∧
          ∃ es', probe j = .ok es' ∧ ∃ e ∈ es', e.id = x)) →
        x ∈ coll ∨ (x ≠ "" ∧ ∃ j, i ≤ j ∧ j < i + (f + 1) ∧
          ∃ es', probe j = .ok es' ∧ ∃ e ∈ es', e.id = x) := by
      rintro es hp (h | ⟨hne, j, hj1, hj2, es', hv, he⟩)
      · exact step es hp h
      · exact Or.inr ⟨hne, j, by omega, by omega, es', hv, he⟩
    unfold folderScanLoop at hx
    split at hx
    · exact Or.inl hx
    · rename_i es hp
      dsimp only [] at hx
      repeat
        first
          | exact step es hp hx
          | exact lift es hp (ih _ _ _ x hx)
          | split at hx

theorem capture_blob_images_urls_adv (probe : Nat → Except Unit (List String))
    (a a' : Nat → Except Unit Unit) :
    capture_blob_images_urls probe a = capture_blob_images_urls probe a' := by
  unfold capture_blob_images_urls
  rw [blobDiscoveryLoop_adv probe a a' 1000 0 [] 0]

theorem folderCollectedIds_adv (probe : Nat → Except Unit (List FolderEntry))
    (a a' : Nat → Except Unit Unit) :
    folderCollectedIds probe a = folderCollectedIds probe a' :=
  folderScanLoop_adv probe a a' 100 0 [] 0

theorem folderCollectedIds_AB (a : Nat → Except Unit Unit) :
    folderCollectedIds folderProbesAB a = ["a", "b"] := by
  rw [folderCollectedIds_adv folderProbesAB a advOk]
  decide

theorem nodup_length_le_dedup (l L : List String) (hn : l.Nodup)
    (hs : ∀ x ∈ l, x ∈ L) : l.length ≤ L.dedup.length := by
  have h1 : l.toFinset.card = l.length := List.toFinset_card_of_nodup hn
  have h2 : L.toFinset.card = L.dedup.length := List.card_toFinset L
  rw [← h1, ← h2]
  exact Finset.card_le_card fun x hx => List.mem_toFinset.mpr (hs x (List.mem_toFinset.mp hx))

theorem freshId_ne_empty (j : Nat) : freshId j ≠ "" := by
  intro h
  have h2 := congrArg String.data h
  simp [freshId] at h2

theorem freshId_inj {i j : Nat} (h : freshId i = freshId j) : i = j := by
  have h2 := congrArg (fun s => s.data.length) h
  simpa [freshId] using h2

theorem freshId_not_mem_range (j n : Nat) (h : n ≤ j) :
    freshId j ∉ (List.range n).map freshId := by
  intro hm
  obtain ⟨m, hm', he⟩ := List.mem_map.mp hm
  have := freshId_inj he
  have hmn := List.mem_range.mp hm'
  omega

theorem blobLoop_freshThenError (k : Nat) (a : Nat → Except Unit Unit) (hk : k ≤ 99) :
    ∀ d j, j + d = k →
      blobDiscoveryLoop (freshThenError k) a (1000 - j) j
        ((List.range j).map freshId) 0 = .error () := by
  intro d
  induction d with
  | zero =>
    intro j hj
    have hjk : j = k := by omega
    subst hjk
    have hfuel : 1000 - j = (999 - j) + 1 := by omega
    rw [hfuel]
    simp [blobDiscoveryLoop, freshThenError]
  | succ d ih =>
    intro j hj
    have hjk : j < k := by omega
    have hfuel : 1000 - j = (1000 - (j + 1)) + 1 := by omega
    rw [hfuel]
    have hp : freshThenError k j = .ok [freshId j] := by simp [freshThenError, hjk]
    have hcoll : collectUrls ((List.range j).map freshId) [freshId j] =
        (List.range (j + 1)).map freshId := by
      have hnm : freshId j ∉ (List.range j).map freshId :=
        freshId_not_mem_range j j (Nat.le_refl j)
      simp [collectUrls, hnm, List.range_succ]
    have h1 : ¬ (200 ≤ j + 1) := by omega
    have h2 : ¬ (j + 1 = j) := by omega
    have h3 : ¬ ((8:Nat) ≤ 0) := by omega
    simp only [blobDiscoveryLoop, hp, hcoll, List.length_map, List.length_range,
      h1, h2, h3, if_false, if_neg]
    cases ha : a j <;> simp only [ha] <;> exact ih (j + 1) (by omega)

theorem folderLoop_freshThenError (k : Nat) (a : Nat → Except Unit Unit) (hk : k ≤ 99) :
    ∀ d j, j + d = k →
      folderScanLoop (freshThenErrorFolder k) a (100 - j) j
        ((List.range j).map freshId) 0 = (List.range k).map freshId := by
  intro d
  induction d with
  | zero =>
    intro j hj
    have hjk : j = k := by omega
    subst hjk
    have hfuel : 100 - j = (99 - j) + 1 := by omega
    rw [hfuel]
    simp [folderScanLoop, freshThenErrorFolder]
  | succ d ih =>
    intro j hj
    have hjk : j < k := by omega
    have hfuel : 100 - j = (100 - (j + 1)) + 1 := by omega
    rw [hfuel]
    have hp : freshThenErrorFolder k j = .ok [⟨freshId j, "file.pdf"⟩] := by
      simp [freshThenErrorFolder, hjk]
    have hcoll : collectIds ((List.range j).map freshId) [⟨freshId j, "file.pdf"⟩] =
        (List.range (j + 1)).map freshId := by
      have hnm : freshId j ∉ (List.range j).map freshId :=
        freshId_not_mem_range j j (Nat.le_refl j)
      simp [collectIds, hnm, freshId_ne_empty, List.range_succ]
    have h2 : ¬ (j + 1 = j) := by omega
    have h3 : ¬ ((15:Nat) ≤ 0) := by omega
    simp only [folderScanLoop, hp, hcoll, List.length_map, List.length_range,
      h2, h3, if_false, if_neg]
    cases ha : a j <;> simp only [ha] <;> exact ih (j + 1) (by omega)

theorem capture_freshThenError (k : Nat) (a : Nat → Except Unit Unit) (hk : k ≤ 99) :
    capture_blob_images_urls (freshThenError k) a = [] := by
  unfold capture_blob_images_urls
  have h := blobLoop_freshThenError k a hk k 0 (by omega)
  simp only [Nat.sub_zero, List.range_zero, List.map_nil] at h
  rw [h]

theorem folderIds_freshThenError (k : Nat) (a : Nat → Except Unit Unit) (hk : k ≤ 99) :
    folderCollectedIds (freshThenErrorFolder k) a = (List.range k).map freshId := by
  unfold folderCollectedIds
  have h := folderLoop_freshThenError k a hk k 0 (by omega)
  simpa using h

theorem blobDiscoveryLoop_cap (probe : Nat → Except Unit (List String))
    (a : Nat → Except Unit Unit)
    (H : ∀ j, ∃ us, probe j = .ok us ∧
      ∃ u ∈ us, ∀ i' < j, ∀ vs, probe i' = .ok vs → u ∉ vs) :
    ∀ fuel i coll noNew,
      (∀ x ∈ coll, ∃ i' < i, ∃ vs, probe i' = .ok vs ∧ x ∈ vs) →
      ∃ l, blobDiscoveryLoop probe a fuel i coll noNew = .ok l ∧
        min 200 (coll.length + fuel) ≤ l.length := by
  intro fuel
  induction fuel with
  | zero =>
    intro i coll noNew _
    exact ⟨coll, rfl, by omega⟩
  | succ f ih =>
    intro i coll noNew inv
    obtain ⟨us, hp, u, hu, hfresh⟩ := H i
    have hnot : u ∉ coll := by
      intro hc
      obtain ⟨i', hi', vs, hv, hxv⟩ := inv u hc
      exact hfresh i' hi' vs hv hxv
    have hlt : coll.length < (collectUrls coll us).length :=
      length_lt_collectUrls coll us u hu hnot
    have inv2 : ∀ x ∈ collectUrls coll us,
        ∃ i' < i + 1, ∃ vs, probe i' = .ok vs ∧ x ∈ vs := by
      intro x hx
      rcases (mem_collectUrls coll us x).mp hx with h | h
      · obtain ⟨i', hi', vs, hv, hxv⟩ := inv x h
        exact ⟨i', by omega, vs, hv, hxv⟩
      · exact ⟨i, by omega, us, hp, h⟩
    by_cases hc : 200 ≤ (collectUrls coll us).length
    · refine ⟨collectUrls coll us, ?_, ?_⟩
      · simp [blobDiscoveryLoop, hp, hc]
      · exact le_trans (Nat.min_le_left _ _) hc
    · have hne : ¬ ((collectUrls coll us).length = coll.length) := by omega
      obtain ⟨l, he, hl⟩ := ih (i + 1) (collectUrls coll us) 0 inv2
      refine ⟨l, ?_, ?_⟩
      · have h3 : ¬ ((8:Nat) ≤ 0) := by omega
        simp only [blobDiscoveryLoop, hp, hc, hne, h3, if_false, if_neg]
        cases ha : a i <;> simpa [ha] using he
      · have : min 200 (coll.length + (f + 1)) ≤ min 200 ((collectUrls coll us).length + f) := by
          omega
        exact le_trans this hl

theorem find?_filter_ne (fs : FS) (p q : TPath) (h : q ≠ p) :
    (fs.filter (fun e => e.1 ≠ p)).find? (fun e => e.1 = q) =
      fs.find? (fun e => e.1 = q) := by
  induction fs with
  | nil => rfl
  | cons e rest ih =>
    by_cases hp : e.1 = p
    · have hq : ¬ (e.1 = q) := fun hq => h (hq ▸ hp ▸ rfl)
      rw [List.filter_cons_of_neg (by simp [hp]),
        List.find?_cons_of_neg rest (by simp [hq]), ih]
    · rw [List.filter_cons_of_pos (by simp [hp])]
      by_cases hq : e.1 = q
      · rw [List.find?_cons_of_pos _ (by simp [hq]),
          List.find?_cons_of_pos rest (by simp [hq])]
      · rw [List.find?_cons_of_neg _ (by simp [hq]),
          List.find?_cons_of_neg rest (by simp [hq]), ih]

theorem fsGet_fsWrite_self (p : TPath) (c : TContent) (fs : FS) :
    fsGet p (fsWrite p c fs) = some c := by
  simp [fsGet, fsWrite]

theorem fsGet_fsWrite_ne (p q : TPath) (c : TContent) (fs : FS) (h : q ≠ p) :
    fsGet q (fsWrite p c fs) = fsGet q fs := by
  have hq : ¬ (p = q) := fun he => h he.symm
  unfold fsGet fsWrite
  rw [List.find?_cons_of_neg _ (by simp [hq]), find?_filter_ne fs p q h]

theorem fsGet_fsUnlink_ne (p q : TPath) (fs : FS) (h : q ≠ p) :
    fsGet q (fsUnlink p fs) = fsGet q fs := by
  unfold fsGet fsUnlink
  rw [find?_filter_ne fs p q h]

theorem fsHas_isSome (p : TPath) (fs : FS) : fsHas p fs = (fsGet p fs).isSome := by
  induction fs with
  | nil => rfl
  | cons e rest ih =>
    by_cases h : e.1 = p
    · simp [fsHas, fsGet, h]
    · simp only [fsHas, fsGet] at ih ⊢
      simp [h, ih]

theorem fsHas_fsUnlink_self (p : TPath) (fs : FS) : fsHas p (fsUnlink p fs) = false := by
  simp only [fsHas, fsUnlink]
  rw [List.any_eq_false]
  intro e he
  simp only [List.mem_filter] at he
  simpa using he.2

theorem fsHas_fsUnlink_false (p q : TPath) (fs : FS) (h : fsHas p fs = false) :
    fsHas p (fsUnlink q fs) = false := by
  simp only [fsHas, fsUnlink, List.any_eq_false] at h ⊢
  intro e he
  exact h e (List.mem_filter.mp he).1

theorem fsHas_foldl_unlink_false (L : List TPath) :
    ∀ (fs : FS) (p : TPath), fsHas p fs = false →
      fsHas p (L.foldl (fun acc q => fsUnlink q acc) fs) = false := by
  induction L with
  | nil => intro fs p h; exact h
  | cons q rest ih =>
    intro fs p h
    exact ih (fsUnlink q fs) p (fsHas_fsUnlink_false p q fs h)

theorem fsHas_foldl_unlink_of_mem (L : List TPath) :
    ∀ (fs : FS) (p : TPath), p ∈ L →
      fsHas p (L.foldl (fun acc q => fsUnlink q acc) fs) = false := by
  induction L with
  | nil => intro fs p h; cases h
  | cons q rest ih =>
    intro fs p h
    rcases List.mem_cons.mp h with rfl | h'
    · exact fsHas_foldl_unlink_false rest (fsUnlink p fs) p (fsHas_fsUnlink_self p fs)
    · exact ih (fsUnlink q fs) p h'

theorem fsGet_foldl_unlink_of_not_mem (L : List TPath) :
    ∀ (fs : FS) (p : TPath), p ∉ L →
      fsGet p (L.foldl (fun acc q => fsUnlink q acc) fs) = fsGet p fs := by
  induction L with
  | nil => intro fs p _; rfl
  | cons q rest ih =>
    intro fs p h
    have h1 : p ≠ q := fun he => h (he ▸ List.mem_cons_self q rest)
    have h2 : p ∉ rest := fun hm => h (List.mem_cons_of_mem q hm)
    rw [List.foldl_cons, ih (fsUnlink q fs) p h2, fsGet_fsUnlink_ne q p fs h1]

theorem writeTemps_fsGet_out (imgs : List ImgSpec) (fs : FS) :
    fsGet TPath.out (writeTemps imgs fs) = fsGet TPath.out fs := by
  unfold writeTemps
  generalize imgs.enum = l
  induction l generalizing fs with
  | nil => rfl
  | cons p rest ih =>
    rw [List.foldl_cons, ih, fsGet_fsWrite_ne _ _ _ _ (by intro h; cases h)]

theorem convertImages_fst (imgs : List ImgSpec) (fs : FS) :
    (convertImages imgs fs).1 =
      imgs.enum.map (fun p =>
        if p.2.decodeOk && p.2.alpha then TPath.jpg p.1 else TPath.png p.1) := by
  unfold convertImages
  generalize imgs.enum = l
  suffices h : ∀ (l : List (Nat × ImgSpec)) (acc : List TPath) (fs : FS),
      (l.foldl (fun st p =>
        if p.2.decodeOk && p.2.alpha then
          (st.1 ++ [TPath.jpg p.1], fsWrite (.jpg p.1) (.jpeg p.1) st.2)
        else (st.1 ++ [TPath.png p.1], st.2)) (acc, fs)).1 =
      acc ++ l.map (fun p =>
        if p.2.decodeOk && p.2.alpha then TPath.jpg p.1 else TPath.png p.1) by
    simpa using h l [] fs
  intro l
  induction l with
  | nil => intro acc fs; simp
  | cons p rest ih =>
    intro acc fs
    rw [List.foldl_cons, List.map_cons]
    by_cases hp : (p.2.decodeOk && p.2.alpha) = true
    · simp only [if_pos hp]
      rw [ih]
      simp
    · simp only [if_neg hp]
      rw [ih]
      simp

theorem convertImages_fsGet_out (imgs : List ImgSpec) (fs : FS) :
    fsGet TPath.out (convertImages imgs fs).2 = fsGet TPath.out fs := by
  unfold convertImages
  generalize imgs.enum = l
  suffices h : ∀ (l : List (Nat × ImgSpec)) (acc : List TPath) (fs : FS),
      fsGet TPath.out ((l.foldl (fun st p =>
        if p.2.decodeOk && p.2.alpha then
          (st.1 ++ [TPath.jpg p.1], fsWrite (.jpg p.1) (.jpeg p.1) st.2)
        else (st.1 ++ [TPath.png p.1], st.2)) (acc, fs)).2) = fsGet TPath.out fs by
    exact h l [] fs
  intro l
  induction l with
  | nil => intro acc fs; rfl
  | cons p rest ih =>
    intro acc fs
    rw [List.foldl_cons]
    by_cases hp : (p.2.decodeOk && p.2.alpha) = true
    · simp only [if_pos hp]
      rw [ih, fsGet_fsWrite_ne _ _ _ _ (by intro h; cases h)]
    · simp only [if_neg hp]
      exact ih _ _

theorem compile_pdf_empty (oo : Bool) (fs0 : FS) : compile_pdf [] oo fs0 = (false, fs0) := by
  simp [compile_pdf]

theorem compile_pdf_openfail (imgs : List ImgSpec) (fs0 : FS) (h1 : imgs.isEmpty = false) :
    compile_pdf imgs false fs0 =
      (false, (convertImages imgs (writeTemps imgs fs0)).2) := by
  simp [compile_pdf, h1]

theorem compile_pdf_convfail (imgs : List ImgSpec) (fs0 : FS) (h1 : imgs.isEmpty = false)
    (h3 : imgs.all img2pdfAccepts = false) :
    compile_pdf imgs true fs0 =
      (false, fsWrite .out .empty (convertImages imgs (writeTemps imgs fs0)).2) := by
  simp [compile_pdf, h1, h3]

theorem compile_pdf_success_eq (imgs : List ImgSpec) (fs0 : FS) (h1 : imgs.isEmpty = false)
    (h3 : imgs.all img2pdfAccepts = true) :
    compile_pdf imgs true fs0 =
      (true, ((imgs.enum.map (fun p => TPath.png p.1)) ++
        (convertImages imgs (writeTemps imgs fs0)).1).foldl (fun acc q => fsUnlink q acc)
          (fsWrite .out .pdf (fsWrite .out .empty
            (convertImages imgs (writeTemps imgs fs0)).2))) := by
  simp [compile_pdf, h1, h3]

theorem rstrip_length_le (l : List Char) : (rstripDotSpace l).length ≤ l.length := by
  unfold rstripDotSpace
  calc (l.reverse.dropWhile dotOrSpace).reverse.length
      = (l.reverse.dropWhile dotOrSpace).length := List.length_reverse _
    _ ≤ l.reverse.length := (List.dropWhile_sublist dotOrSpace).length_le
    _ = l.length := List.length_reverse _

theorem rstrip_subset (l : List Char) (x : Char) (h : x ∈ rstripDotSpace l) : x ∈ l := by
  unfold rstripDotSpace at h
  rw [List.mem_reverse] at h
  have := (List.dropWhile_sublist dotOrSpace).subset h
  rwa [List.mem_reverse] at this

theorem rstrip_eq_self (l : List Char)
    (h : ∀ c, l.getLast? = some c → dotOrSpace c = false) : rstripDotSpace l = l := by
  unfold rstripDotSpace
  cases hrev : l.reverse with
  | nil =>
    have : l = [] := by simpa using congrArg List.reverse hrev
    simp [this]
  | cons c rest =>
    have hc : l.getLast? = some c := by
      rw [← List.head?_reverse, hrev]
      rfl
    rw [List.dropWhile_cons_of_neg (by simp [h c hc])]
    rw [← hrev, List.reverse_reverse]

theorem illegalChar_replaceIllegal (c : Char) : illegalChar (replaceIllegal c) = false := by
  unfold replaceIllegal
  by_cases h : illegalChar c = true
  · rw [if_pos h]; decide
  · rw [if_neg h]
    exact Bool.eq_false_iff.mpr h

/-- C7 counterexample: `sanitize_filename` substitutes `_` for an illegal
character instead of stripping it — on `"a<b"` the code yields `"a_b"` while
the spec's strip-trim-truncate-default routine yields `"ab"` whatever default
name is chosen — and an input sanitizing to the empty string is returned
empty, not replaced by a fixed default name. -/
theorem sanitize_filename_claim_cex :
    sanitize_filename "a<b" = "a_b"
  ∧ (∀ dflt : String, sanitize_filename_spec dflt "a<b" = "ab")
  ∧ ("a_b" : String) ≠ "ab"
  ∧ sanitize_filename "." = "" :=
  ⟨by decide, fun _ => rfl, by decide, by decide⟩

/-- C7 (amended): `sanitize_filename` replaces each control character and
each of `<>:"/\|?*` with an underscore (so the result never contains an
illegal character and never grows), trims trailing dots and spaces, and
truncates to at most 200 characters; a string that is already clean is
returned unchanged, and an empty result is returned as the empty string
(no default-name fallback in this routine). -/
theorem sanitize_filename_amended : ∀ s : String,
    (sanitize_filename s).length ≤ 200
  ∧ (sanitize_filename s).length ≤ s.length
  ∧ (∀ c ∈ (sanitize_filename s).data, illegalChar c = false)
  ∧ ((∀ c ∈ s.data, illegalChar c = false) →
      (∀ c, s.data.getLast? = some c → dotOrSpace c = false) →
      s.length ≤ 200 → sanitize_filename s = s) := by
  intro s
  have hmap_len : (s.data.map replaceIllegal).length = s.data.length :=
    List.length_map _ _
  have hbase_len : (rstripDotSpace (s.data.map replaceIllegal)).length ≤ s.data.length := by
    calc (rstripDotSpace (s.data.map replaceIllegal)).length
        ≤ (s.data.map replaceIllegal).length := rstrip_length_le _
      _ = s.data.length := hmap_len
  have hdata : (sanitize_filename s).data =
      (if (rstripDotSpace (s.data.map replaceIllegal)).length > 200 then
        (rstripDotSpace (s.data.map replaceIllegal)).take 200
      else rstripDotSpace (s.data.map replaceIllegal)) := rfl
  have hlen : (sanitize_filename s).length = (sanitize_filename s).data.length := rfl
  refine ⟨?_, ?_, ?_, ?_⟩
  · rw [hlen, hdata]
    by_cases h : (rstripDotSpace (s.data.map replaceIllegal)).length > 200
    · rw [if_pos h]
      simp
    · rw [if_neg h]
      omega
  · rw [hlen, hdata]
    by_cases h : (rstripDotSpace (s.data.map replaceIllegal)).length > 200
    · rw [if_pos h]
      have := List.length_take_le 200 (rstripDotSpace (s.data.map replaceIllegal))
      show _ ≤ s.data.length
      omega
    · rw [if_neg h]
      exact hbase_len
  · intro c hc
    rw [hdata] at hc
    have hc2 : c ∈ rstripDotSpace (s.data.map replaceIllegal) := by
      by_cases h : (rstripDotSpace (s.data.map replaceIllegal)).length > 200
      · rw [if_pos h] at hc
        exact List.take_subset 200 _ hc
      · rwa [if_neg h] at hc
    have hc3 : c ∈ s.data.map replaceIllegal := rstrip_subset _ _ hc2
    obtain ⟨c', _, rfl⟩ := List.mem_map.mp hc3
    exact illegalChar_replaceIllegal c'
  · intro hclean htail hshort
    have hsl : s.length = s.data.length := rfl
    have hmap : s.data.map replaceIllegal = s.data := by
      have h : ∀ x ∈ s.data, replaceIllegal x = x := by
        intro x hx
        unfold replaceIllegal
        rw [if_neg (by simp [hclean x hx])]
      calc s.data.map replaceIllegal = s.data.map (fun a => a) := List.map_congr_left h
        _ = s.data := by simp
    have hstrip : rstripDotSpace s.data = s.data := rstrip_eq_self s.data htail
    apply String.ext
    rw [hdata, hmap, hstrip]
    rw [if_neg (by omega)]

/-- C8: the output-name collision loop of `download_pdf` never returns an
existing file's name; it is deterministic in the directory state; when the
intended name is free it returns it unchanged; and when the intended name is
taken it returns the first free name of the incrementing-suffix sequence
`<title>_<k>.pdf`, every earlier candidate being taken. -/
theorem download_pdf_output_name_spec (fs : List String) (title : String)
    (h : ∃ k, outputCandidate title k ∉ fs) :
    download_pdf_output_name fs title h ∉ fs
  ∧ (∀ h', download_pdf_output_name fs title h' = download_pdf_output_name fs title h)
  ∧ (outputCandidate title 0 ∉ fs →
      download_pdf_output_name fs title h = outputCandidate title 0)
  ∧ (outputCandidate title 0 ∈ fs → ∃ k, 0 < k
      ∧ download_pdf_output_name fs title h = outputCandidate title k
      ∧ outputCandidate title k ∉ fs
      ∧ ∀ j < k, outputCandidate title j ∈ fs) := by
  refine ⟨Nat.find_spec h, fun h' => rfl, ?_, ?_⟩
  · intro h0
    unfold download_pdf_output_name
    congr 1
    exact (Nat.find_eq_zero h).mpr h0
  · intro h0
    refine ⟨Nat.find h, ?_, rfl, Nat.find_spec h, ?_⟩
    · cases hk : Nat.find h with
      | zero => exact absurd ((Nat.find_eq_zero h).mp hk) (not_not.mpr h0)
      | succ n => omega
    · intro j hj
      exact not_not.mp (Nat.find_min h hj)

/-- C8 witness: in a directory already holding `t.pdf`, the routine avoids
the existing name. -/
theorem download_pdf_output_name_spec_witness :
    download_pdf_output_name ["t.pdf"] "t" ⟨1, by decide⟩ ∉ ["t.pdf"] :=
  (download_pdf_output_name_spec ["t.pdf"] "t" ⟨1, by decide⟩).1

/-- C9: throughout both discovery loops the accumulated collection holds no
duplicate id — from any duplicate-free state every reachable state is
duplicate-free — and the final collection's length never exceeds the number
of distinct identifiers the probes ever showed. -/
theorem discovery_no_duplicate_ids :
    (∀ probe adv, (capture_blob_images_urls probe adv).Nodup
      ∧ (capture_blob_images_urls probe adv).length ≤ (pageSeen probe).dedup.length)
  ∧ (∀ probe adv, (folderCollectedIds probe adv).Nodup
      ∧ (folderCollectedIds probe adv).length ≤ (folderSeen probe).dedup.length)
  ∧ (∀ probe adv fuel i coll noNew l, coll.Nodup →
      blobDiscoveryLoop probe adv fuel i coll noNew = .ok l → l.Nodup)
  ∧ (∀ probe adv fuel i coll noNew, coll.Nodup →
      (folderScanLoop probe adv fuel i coll noNew).Nodup) := by
  refine ⟨?_, ?_, blobDiscoveryLoop_nodup, folderScanLoop_nodup⟩
  · intro probe adv
    unfold capture_blob_images_urls
    cases he : blobDiscoveryLoop probe adv 1000 0 [] 0 with
    | error e => exact ⟨List.nodup_nil, by simp⟩
    | ok l =>
      have hnodup : l.Nodup := blobDiscoveryLoop_nodup probe adv 1000 0 [] 0 l List.nodup_nil he
      refine ⟨hnodup, nodup_length_le_dedup l (pageSeen probe) hnodup ?_⟩
      intro x hx
      rcases blobDiscoveryLoop_mem probe adv 1000 0 [] 0 l he x hx with hc | ⟨j, _, hj, us, hv, hxu⟩
      · cases hc
      · unfold pageSeen
        refine List.mem_flatMap.mpr ⟨j, List.mem_range.mpr (by omega), ?_⟩
        rw [hv]
        exact hxu
  · intro probe adv
    have hnodup : (folderCollectedIds probe adv).Nodup :=
      folderScanLoop_nodup probe adv 100 0 [] 0 List.nodup_nil
    refine ⟨hnodup, nodup_length_le_dedup _ (folderSeen probe) hnodup ?_⟩
    intro x hx
    rcases folderScanLoop_mem probe adv 100 0 [] 0 x hx with hc | ⟨_, j, _, hj, es, hv, e, he, hex⟩
    · cases hc
    · unfold folderSeen
      refine List.mem_flatMap.mpr ⟨j, List.mem_range.mpr (by omega), ?_⟩
      rw [hv]
      exact List.mem_map.mpr ⟨e, he, hex⟩

/-- C9 witness: the duplicate-freedom invariant applied at a concrete
duplicate-free starting state of the page loop. -/
theorem discovery_no_duplicate_ids_witness :
    ∃ l, blobDiscoveryLoop (fun _ => .ok ["u1"]) advOk 1 5 ["u0"] 0 = .ok l ∧ l.Nodup := by
  refine ⟨["u0", "u1"], rfl, ?_⟩
  exact discovery_no_duplicate_ids.2.2.1 (fun _ => .ok ["u1"]) advOk 1 5 ["u0"] 0
    ["u0", "u1"] (by decide) rfl

/-- C10: every id the folder scan collects is nonempty, and for every
nonempty id over `[a-zA-Z0-9-_]` the file URL folder expansion constructs
round-trips: `extract_file_id_from_url` recovers exactly the id and
`is_file_url` classifies the URL as a file URL. -/
theorem folder_urls_roundtrip :
    (∀ id : String, id ≠ "" → (∀ c ∈ id.data, idChar c = true) →
      extract_file_id_from_url (file_url_of id) = some id
      ∧ is_file_url (file_url_of id) = true)
  ∧ (∀ probe adv x, x ∈ folderCollectedIds probe adv → x ≠ "") := by
  constructor
  · intro id h1 h2
    exact ⟨extract_file_id_roundtrip id h1 h2, is_file_url_of_folder_url id⟩
  · intro probe adv x hx
    rcases folderScanLoop_mem probe adv 100 0 [] 0 x hx with h | ⟨hne, _⟩
    · cases h
    · exact hne

/-- C10 witness: the round-trip at the concrete id `abc123`. -/
theorem folder_urls_roundtrip_witness :
    extract_file_id_from_url (file_url_of "abc123") = some "abc123" :=
  (folder_urls_roundtrip.1 "abc123" (by decide) (by decide)).1

/-- C1 counterexample: the folder scenario `{a}`, then `{a, b}`, then
stable, expanded through a legitimate Python set-enumeration order (here the
reverse of insertion order) yields the two URLs as b, a — not in the
claimed first-seen order a, b. -/
theorem folder_expansion_order_cex :
    (∀ l : List String, (List.reverse l).Perm l)
  ∧ extract_files_from_folder List.reverse folderProbesAB advOk =
      [file_url_of "b", file_url_of "a"]
  ∧ [file_url_of "b", file_url_of "a"] ≠ [file_url_of "a", file_url_of "b"] :=
  ⟨fun l => List.reverse_perm l, by decide, by decide⟩

/-- C1 (amended): for the scenario probes `{a}`, then `{a, b}`, then stable,
folder expansion produces exactly one file URL per distinct id — exactly the
two URLs for a and b, each once — but only up to permutation: the order is
Python's unspecified set-enumeration order, not guaranteed first-seen
order. -/
theorem folder_expansion_two_entries :
    ∀ (iter : List String → List String) (adv : Nat → Except Unit Unit),
      (∀ l, (iter l).Perm l) →
      (extract_files_from_folder iter folderProbesAB adv).Perm
        [file_url_of "a", file_url_of "b"]
      ∧ (extract_files_from_folder iter folderProbesAB adv).length = 2 := by
  intro iter adv hiter
  unfold extract_files_from_folder
  rw [folderCollectedIds_AB]
  refine ⟨List.Perm.map file_url_of (hiter ["a", "b"]), ?_⟩
  rw [List.length_map]
  exact (hiter ["a", "b"]).length_eq

/-- C1 witness: with the identity enumeration the expansion is exactly the
two URLs. -/
theorem folder_expansion_two_entries_witness :
    (extract_files_from_folder (fun l => l) folderProbesAB advOk).Perm
      [file_url_of "a", file_url_of "b"] :=
  (folder_expansion_two_entries (fun l => l) advOk (fun l => List.Perm.refl l)).1

/-- C2 counterexample: a probe trace erroring on its second iteration makes
`capture_blob_images` discard everything and return no URLs, while the
spec's loop — which counts the error as zero new items and continues —
collects both URLs of the trace. -/
theorem discovery_loop_error_cex :
    capture_blob_images_urls errorMidProbe advOk = []
  ∧ specPageDiscover errorMidProbe = ["u1", "u2"]
  ∧ ([] : List String) ≠ ["u1", "u2"] :=
  ⟨by decide, by decide, by decide⟩

/-- C2 (amended): advance errors are swallowed — neither loop's result
depends on the advance outcomes — but a probe error ends discovery early
without raising: the page loop discards what it collected and yields `[]`,
and the folder loop stops and returns exactly the ids collected before the
error. -/
theorem discovery_loop_error_behavior :
    ∀ (k : Nat) (aP aP' aF aF' : Nat → Except Unit Unit), k ≤ 99 →
      (∀ probe, capture_blob_images_urls probe aP = capture_blob_images_urls probe aP')
      ∧ (∀ probe, folderCollectedIds probe aF = folderCollectedIds probe aF')
      ∧ capture_blob_images_urls (freshThenError k) aP = []
      ∧ folderCollectedIds (freshThenErrorFolder k) aF = (List.range k).map freshId := by
  intro k aP aP' aF aF' hk
  exact ⟨fun probe => capture_blob_images_urls_adv probe aP aP',
    fun probe => folderCollectedIds_adv probe aF aF',
    capture_freshThenError k aP hk,
    folderIds_freshThenError k aF hk⟩

/-- C2 witness: two successful probes then an error — the page loop yields
nothing, the folder loop keeps its two collected ids. -/
theorem discovery_loop_error_behavior_witness :
    capture_blob_images_urls (freshThenError 2) advOk = []
  ∧ folderCollectedIds (freshThenErrorFolder 2) advOk = (List.range 2).map freshId :=
  ⟨(discovery_loop_error_behavior 2 advOk advOk advOk advOk (by decide)).2.2.1,
   (discovery_loop_error_behavior 2 advOk advOk advOk advOk (by decide)).2.2.2⟩

/-- C3 (amended): when every probe yields at least one identifier never
seen before, page discovery terminates with at least `max_pages_cap = 200`
collected URLs — at least, not exactly: a probe may push the total past the
cap, which is only checked after the whole probe is merged. -/
theorem page_discovery_cap_bound :
    ∀ (probe : Nat → Except Unit (List String)) (adv : Nat → Except Unit Unit),
      (∀ j, ∃ us, probe j = .ok us ∧
        ∃ u ∈ us, ∀ i' < j, ∀ vs, probe i' = .ok vs → u ∉ vs) →
      200 ≤ (capture_blob_images_urls probe adv).length := by
  intro probe adv H
  obtain ⟨l, he, hl⟩ :=
    blobDiscoveryLoop_cap probe adv H 1000 0 [] 0 (by intro x hx; cases hx)
  unfold capture_blob_images_urls
  rw [he]
  simpa using hl

/-- C3 witness: one fresh URL per probe drives the collection to the cap. -/
theorem page_discovery_cap_bound_witness :
    200 ≤ (capture_blob_images_urls (fun j => .ok [freshId j]) advOk).length := by
  apply page_discovery_cap_bound
  intro j
  refine ⟨[freshId j], rfl, freshId j, List.mem_singleton.mpr rfl, ?_⟩
  intro i' hi' vs hv hm
  have hvs : vs = [freshId i'] := by
    injection hv with h
    exact h.symm
  rw [hvs] at hm
  have h2 := freshId_inj (List.mem_singleton.mp hm)
  omega

/-- C3 counterexample: probes showing 201 fresh URLs each iteration satisfy
the claim's premise, yet the loop stops with 201 collected URLs — the cap
check runs only after a whole probe is merged, so `collected` overshoots the
cap and its length is not exactly 200. -/
theorem page_discovery_cap_cex :
    (∀ j, ∃ us, overshootProbe j = .ok us ∧
      ∃ u ∈ us, ∀ i' < j, ∀ vs, overshootProbe i' = .ok vs → u ∉ vs)
  ∧ (capture_blob_images_urls overshootProbe advOk).length = 201
  ∧ 201 ≠ 200 := by
  refine ⟨?_, by decide, by decide⟩
  intro j
  refine ⟨_, rfl, String.mk (Char.ofNat 65 :: List.replicate j 'a'), ?_, ?_⟩
  · exact List.mem_map.mpr ⟨0, List.mem_range.mpr (by omega), by simp⟩
  · intro i' hi' vs hv hm
    have hvs : vs = (List.range 201).map
        (fun r => String.mk (Char.ofNat (65 + r) :: List.replicate i' 'a')) := by
      injection hv with h
      exact h.symm
    rw [hvs] at hm
    obtain ⟨r, _, he⟩ := List.mem_map.mp hm
    have hlen := congrArg (fun s => s.data.length) he
    simp at hlen
    omega

/-- C4 counterexample: a one-page assembly whose destination cannot be
opened returns failure and leaves the page's temp file `page_0000.png` on
persistent storage — cleanup does not run on the failure path. -/
theorem compile_pdf_cleanup_cex :
    (compile_pdf [⟨true, false, true⟩] false []).1 = false
  ∧ fsHas (TPath.png 0) (compile_pdf [⟨true, false, true⟩] false []).2 = true :=
  ⟨by decide, by decide⟩

/-- C4 (amended): after every call to `compile_pdf` that returns success,
no temporary page file written in the persist step and no intermediate
JPEG created in the conversion step remains on persistent storage; when
the call fails after the persist step the temp files are left behind. -/
theorem compile_pdf_cleanup_on_success :
    ∀ (imgs : List ImgSpec) (openOutOk : Bool) (fs0 : FS),
      (compile_pdf imgs openOutOk fs0).1 = true →
      ∀ p ∈ imgs.enum,
        fsHas (TPath.png p.1) (compile_pdf imgs openOutOk fs0).2 = false
        ∧ ((p.2.decodeOk && p.2.alpha) = true →
            fsHas (TPath.jpg p.1) (compile_pdf imgs openOutOk fs0).2 = false) := by
  intro imgs oo fs0 hs p hp
  have h1 : imgs.isEmpty = false := by
    cases h : imgs.isEmpty
    · rfl
    · rw [List.isEmpty_iff.mp h, compile_pdf_empty] at hs
      simp at hs
  cases oo with
  | false =>
    rw [compile_pdf_openfail imgs fs0 h1] at hs
    simp at hs
  | true =>
    have h3 : imgs.all img2pdfAccepts = true := by
      cases h : imgs.all img2pdfAccepts
      · rw [compile_pdf_convfail imgs fs0 h1 h] at hs
        simp at hs
      · rfl
    rw [compile_pdf_success_eq imgs fs0 h1 h3]
    constructor
    · apply fsHas_foldl_unlink_of_mem
      exact List.mem_append.mpr (Or.inl (List.mem_map.mpr ⟨p, hp, rfl⟩))
    · intro hcond
      apply fsHas_foldl_unlink_of_mem
      refine List.mem_append.mpr (Or.inr ?_)
      rw [convertImages_fst]
      exact List.mem_map.mpr ⟨p, hp, by rw [if_pos hcond]⟩

/-- C4 witness: a successful one-page assembly (with conversion) leaves
neither its temp page file nor its intermediate JPEG behind. -/
theorem compile_pdf_cleanup_on_success_witness :
    fsHas (TPath.png 0) (compile_pdf [⟨true, true, true⟩] true []).2 = false
  ∧ fsHas (TPath.jpg 0) (compile_pdf [⟨true, true, true⟩] true []).2 = false := by
  have h := compile_pdf_cleanup_on_success [⟨true, true, true⟩] true [] (by decide)
    (0, ⟨true, true, true⟩) (by decide)
  exact ⟨h.1, h.2 (by decide)⟩

/-- C5 counterexample: when `img2pdf.convert` rejects the input after
`open(output_path, 'wb')` has already created the destination, assembly
fails yet a file — the empty artifact — exists at the intended final
name. -/
theorem compile_pdf_destination_cex :
    (compile_pdf [⟨false, false, false⟩] true []).1 = false
  ∧ fsHas TPath.out (compile_pdf [⟨false, false, false⟩] true []).2 = true :=
  ⟨by decide, by decide⟩

/-- C5 (amended): starting from a state with nothing at the final name,
a failure before the destination is opened (empty input, or the open
raising) leaves no file at the final name; but a failure after the open —
the conversion raising — leaves an empty file there; success leaves the
complete artifact there. -/
theorem compile_pdf_destination_state :
    ∀ (imgs : List ImgSpec) (openOutOk : Bool) (fs0 : FS),
      fsHas TPath.out fs0 = false →
      ((imgs.isEmpty = true ∨ openOutOk = false) →
        fsHas TPath.out (compile_pdf imgs openOutOk fs0).2 = false)
      ∧ ((compile_pdf imgs openOutOk fs0).1 = false → imgs.isEmpty = false →
          openOutOk = true →
          fsGet TPath.out (compile_pdf imgs openOutOk fs0).2 = some TContent.empty)
      ∧ ((compile_pdf imgs openOutOk fs0).1 = true →
          fsGet TPath.out (compile_pdf imgs openOutOk fs0).2 = some TContent.pdf) := by
  intro imgs oo fs0 h0
  refine ⟨?_, ?_, ?_⟩
  · rintro (he | he)
    · rw [List.isEmpty_iff.mp he, compile_pdf_empty]
      exact h0
    · subst he
      by_cases h1 : imgs.isEmpty = true
      · rw [List.isEmpty_iff.mp h1, compile_pdf_empty]
        exact h0
      · rw [compile_pdf_openfail imgs fs0 (by simpa using h1)]
        rw [fsHas_isSome, convertImages_fsGet_out, writeTemps_fsGet_out, ← fsHas_isSome]
        exact h0
  · intro hf h1 h2
    subst h2
    have h3 : imgs.all img2pdfAccepts = false := by
      cases h : imgs.all img2pdfAccepts
      · rfl
      · rw [compile_pdf_success_eq imgs fs0 h1 h] at hf
        simp at hf
    rw [compile_pdf_convfail imgs fs0 h1 h3]
    exact fsGet_fsWrite_self _ _ _
  · intro ht
    have h1 : imgs.isEmpty = false := by
      cases h : imgs.isEmpty
      · rfl
      · rw [List.isEmpty_iff.mp h, compile_pdf_empty] at ht
        simp at ht
    cases oo with
    | false =>
      rw [compile_pdf_openfail imgs fs0 h1] at ht
      simp at ht
    | true =>
      have h3 : imgs.all img2pdfAccepts = true := by
        cases h : imgs.all img2pdfAccepts
        · rw [compile_pdf_convfail imgs fs0 h1 h] at ht
          simp at ht
        · rfl
      have hout : TPath.out ∉ (imgs.enum.map (fun p => TPath.png p.1)) ++
          (convertImages imgs (writeTemps imgs fs0)).1 := by
        intro hm
        rcases List.mem_append.mp hm with hm | hm
        · obtain ⟨p, _, he⟩ := List.mem_map.mp hm
          cases he
        · rw [convertImages_fst] at hm
          obtain ⟨p, _, he⟩ := List.mem_map.mp hm
          by_cases hc : (p.2.decodeOk && p.2.alpha) = true
          · rw [if_pos hc] at he; cases he
          · rw [if_neg hc] at he; cases he
      rw [compile_pdf_success_eq imgs fs0 h1 h3]
      rw [fsGet_foldl_unlink_of_not_mem _ _ _ hout, fsGet_fsWrite_self]

/-- C5 witness: the convert-failure branch applied at a concrete input —
the empty artifact sits at the final name. -/
theorem compile_pdf_destination_state_witness :
    fsGet TPath.out (compile_pdf [⟨false, false, false⟩] true []).2 =
      some TContent.empty := by
  have h := compile_pdf_destination_state [⟨false, false, false⟩] true [] (by decide)
  exact h.2.1 (by decide) (by decide) rfl

/-- C6 counterexample: with a decodable first image and an undecodable
second image, the conversion step still hands both temp files — including
the failing image's — to the concatenation, and the whole assembly fails
rather than proceeding without the failed image. -/
theorem convert_step_drop_cex :
    (convertImages [⟨true, false, true⟩, ⟨false, false, false⟩] []).1 =
      [TPath.png 0, TPath.png 1]
  ∧ TPath.png 1 ∈ (convertImages [⟨true, false, true⟩, ⟨false, false, false⟩] []).1
  ∧ (compile_pdf [⟨true, false, true⟩, ⟨false, false, false⟩] true []).1 = false :=
  ⟨by decide, by decide, by decide⟩

/-- C6 (amended): an image whose decode/normalization fails is not dropped:
every input image contributes exactly one path to the concatenation input —
the failing image its unconverted temp path — and if the concatenation step
then rejects such a file the whole assembly fails. -/
theorem convert_step_no_drop :
    ∀ (imgs : List ImgSpec) (fs0 : FS),
      (convertImages imgs fs0).1 = imgs.enum.map (fun p =>
        if p.2.decodeOk && p.2.alpha then TPath.jpg p.1 else TPath.png p.1)
      ∧ (convertImages imgs fs0).1.length = imgs.length
      ∧ (∀ p ∈ imgs.enum, p.2.decodeOk = false →
          TPath.png p.1 ∈ (convertImages imgs fs0).1)
      ∧ ((∃ img ∈ imgs, img.decodeOk = false ∧ img.rawPdfOk = false) →
          imgs.isEmpty = false → (compile_pdf imgs true fs0).1 = false) := by
  intro imgs fs0
  refine ⟨convertImages_fst imgs fs0, ?_, ?_, ?_⟩
  · rw [convertImages_fst, List.length_map, List.enum_length]
  · intro p hp hd
    rw [convertImages_fst]
    refine List.mem_map.mpr ⟨p, hp, ?_⟩
    rw [if_neg (by simp [hd])]
  · rintro ⟨img, hm, hd, hr⟩ h1
    have hacc : img2pdfAccepts img = false := by
      unfold img2pdfAccepts
      rw [if_neg (by simp [hd])]
      exact hr
    have h3 : imgs.all img2pdfAccepts = false := by
      cases h : imgs.all img2pdfAccepts
      · rfl
      · have := List.all_eq_true.mp h img hm
        rw [hacc] at this
        cases this
    rw [compile_pdf_convfail imgs fs0 h1 h3]

end GDDown
